import Mathlib

/-!
# unhex.c : a curses hex editor

Shallow embedding of `src/unhex.c`.

* C `int` and `long` values are embedded as `Int`.  Signed overflow has no defined
  behaviour in C; the development covers the executions in which it does not occur
  (offsets and file sizes below `2^31 - 16`).
* `unsigned char` values are embedded as `Nat`, reduced `% 256` where the C code
  converts an `int` to `unsigned char`.
* The heap block returned by `load_file` is a `List Nat` whose length is the file size.
  A store `data[i] = v` with `i` outside the block has no defined behaviour in C; the
  embedding reports it as `Outcome.fault i`.
* The key codes `KEY_UP`, `KEY_DOWN`, `KEY_LEFT`, `KEY_RIGHT` come from `curses.h`, which is
  not part of the repository: they are a parameter (`Curses`).
-/

namespace Unhex

/-! ## Constants and library functions -/

/-- The constant `BYTES_PER_LINE` (line 12), 16. -/
def BYTES_PER_LINE : Int := 16

/-- The constant `MAX_ROWS` (line 13), 24. -/
def MAX_ROWS : Int := 24

/-- The four key codes of `curses.h` that `hex_editor` compares `getch()` against. -/
structure Curses where
  KEY_UP : Int
  KEY_DOWN : Int
  KEY_LEFT : Int
  KEY_RIGHT : Int
  deriving Repr, DecidableEq

/-- The key codes of ncurses (`KEY_DOWN 0402`, `KEY_UP 0403`, `KEY_LEFT 0404`,
`KEY_RIGHT 0405`, in octal). -/
def ncurses : Curses := { KEY_UP := 259, KEY_DOWN := 258, KEY_LEFT := 260, KEY_RIGHT := 261 }

/-- What curses guarantees of its key codes: they lie above every `unsigned char`
value, and the four of them are pairwise different. -/
def Curses.Sane (K : Curses) : Prop :=
  255 < K.KEY_UP ∧ 255 < K.KEY_DOWN ∧ 255 < K.KEY_LEFT ∧ 255 < K.KEY_RIGHT ∧
  K.KEY_UP ≠ K.KEY_DOWN ∧ K.KEY_UP ≠ K.KEY_LEFT ∧ K.KEY_UP ≠ K.KEY_RIGHT ∧
  K.KEY_DOWN ≠ K.KEY_LEFT ∧ K.KEY_DOWN ≠ K.KEY_RIGHT ∧ K.KEY_LEFT ≠ K.KEY_RIGHT

instance (K : Curses) : Decidable K.Sane := by
  unfold Curses.Sane
  infer_instance

/-- The character `q`. -/
def CH_q : Int := 113

/-- The `isdigit` of `ctype.h`: the characters `0` to `9` (codes 48 to 57). -/
def isdigit (ch : Int) : Bool := decide (48 ≤ ch ∧ ch ≤ 57)

/-- The `isxdigit` of `ctype.h`: `0`-`9`, `a`-`f` (97 to 102), `A`-`F` (65 to 70).
A key code that is no `unsigned char` (a function key, above 255) is taken as no digit. -/
def isxdigit (ch : Int) : Bool :=
  isdigit ch || decide (97 ≤ ch ∧ ch ≤ 102) || decide (65 ≤ ch ∧ ch ≤ 70)

/-- The `tolower` of `ctype.h` in the C locale: `A`-`Z` (65 to 90) are moved to `a`-`z`. -/
def tolower (ch : Int) : Int := if 65 ≤ ch ∧ ch ≤ 90 then ch + 32 else ch

/-- The `isprint` of `ctype.h` in the C locale: the codes 0x20 to 0x7E. -/
def isprint (ch : Int) : Bool := decide (32 ≤ ch ∧ ch ≤ 126)

/-! ## `display_hex_editor`: the first visible line -/

/-- Lines 65-66 of `display_hex_editor`:
`start_line = selected_byte / max_bytes_per_row - (max_visible_rows / 2);`
`if (start_line < 0) start_line = 0;`  (C division truncates toward zero). -/
def start_line (selected_byte : Int) : Int :=
  let start_line := Int.tdiv selected_byte BYTES_PER_LINE - Int.tdiv MAX_ROWS 2
  if start_line < 0 then 0 else start_line

/-! ## `hex_editor`: the editor state and one turn of the main loop -/

/-- The local variables of `hex_editor` that the main loop updates, with the heap block
`data`. -/
structure Editor where
  data : List Nat
  selected_byte : Int
  edit_mode : Int
  edit_value : Nat
  deriving Repr, DecidableEq

/-- What one turn of the `while (1)` loop does after `getch()` returned. -/
inductive Outcome where
  /-- the loop goes round again with these variables -/
  | next (s : Editor)
  /-- the `break` of the `q` branch -/
  | quit (s : Editor)
  /-- a store `data[offset] = ...` outside the block `data` -/
  | fault (offset : Int)
  deriving Repr, DecidableEq

/-- Line 137: `int hex_value = isdigit(ch) ? ch - '0' : tolower(ch) - 'a' + 10;` -/
def hex_value (ch : Int) : Int :=
  if isdigit ch then ch - 48 else tolower ch - 97 + 10

/-- Lines 126-147: the `if` chain on the key `ch` returned by `getch()`.
`file_size` is the local of that name, which the loop never assigns. -/
def step (K : Curses) (file_size : Int) (s : Editor) (ch : Int) : Outcome :=
  if ch = K.KEY_UP then
    if s.selected_byte ≥ BYTES_PER_LINE then
      .next { s with selected_byte := s.selected_byte - BYTES_PER_LINE }
    else .next s
  else if ch = K.KEY_DOWN then
    if s.selected_byte + BYTES_PER_LINE < file_size then
      .next { s with selected_byte := s.selected_byte + BYTES_PER_LINE }
    else .next s
  else if ch = K.KEY_LEFT then
    if s.selected_byte > 0 then
      .next { s with selected_byte := s.selected_byte - 1 }
    else .next s
  else if ch = K.KEY_RIGHT then
    if s.selected_byte < file_size - 1 then
      .next { s with selected_byte := s.selected_byte + 1 }
    else .next s
  else if ch = CH_q then
    .quit s
  else if isxdigit ch then
    let hex_value := hex_value ch
    if s.edit_mode = 0 then
      .next { s with edit_value := (hex_value.toNat <<< 4) % 256, edit_mode := 1 }
    else
      let edit_value := (s.edit_value ||| hex_value.toNat) % 256
      if 0 ≤ s.selected_byte ∧ s.selected_byte < s.data.length then
        .next { data := s.data.set s.selected_byte.toNat edit_value
                selected_byte := s.selected_byte + 1
                edit_mode := 0
                edit_value := edit_value }
      else .fault s.selected_byte
  else .next s

/-! ## `save_file`, and the session as a whole -/

/-- The bytes `save_file` puts in the file: `fwrite(data, 1, file_size, file)`. -/
def save_file (data : List Nat) (file_size : Int) : List Nat :=
  data.take file_size.toNat

/-- How far a session has come once the keys typed so far are consumed. -/
inductive Session where
  /-- the loop is blocked in `getch()` with these variables -/
  | waiting (s : Editor)
  /-- `q` was read: `save_file(filename, data, file_size)` is called -/
  | saved (data : List Nat) (file_size : Int)
  /-- a store outside the block `data` happened -/
  | fault (offset : Int)
  deriving Repr, DecidableEq

/-- The `while (1)` loop of `hex_editor`, fed the keys that `getch()` returns in turn. -/
def loop (K : Curses) (file_size : Int) : Editor → List Int → Session
  | s, [] => .waiting s
  | s, ch :: rest =>
    match step K file_size s ch with
    | .next s' => loop K file_size s' rest
    | .quit s' => .saved s'.data file_size
    | .fault offset => .fault offset

/-- The variables at the entry of the main loop (lines 113-119): `load_file` returned the
file contents as `data` and their count as `file_size`. -/
def initial (data : List Nat) : Editor :=
  { data := data, selected_byte := 0, edit_mode := 0, edit_value := 0 }

/-- The run of `hex_editor` on a file holding `contents`, with the keys `keys` typed. -/
def hex_editor (K : Curses) (contents : List Nat) (keys : List Int) : Session :=
  loop K contents.length (initial contents) keys

/-! ## `display_hex_editor`: what is written to the window

The characters written are kept as their codes (space 32, `-` 45, `.` 46, newline 10),
in the pieces in which `wprintw` writes them, each with the state of `A_REVERSE`. -/

/-- One call of `wprintw`: the character codes it writes, and whether `A_REVERSE` is on. -/
structure Piece where
  text : List Nat
  reverse : Bool
  deriving Repr, DecidableEq

/-- The character that `printf` writes for one hexadecimal digit under `%x`:
`0`-`9` (48 to 57), then lowercase `a`-`f` (97 to 102). -/
def hex_digit (d : Nat) : Nat := if d < 10 then 48 + d else 87 + d

/-- The output of `printf` for a zero-padded field of `width` hexadecimal digits (`%02x`,
`%08x`) on a value below `16 ^ width`, which an `unsigned char` is for width 2 and an
`unsigned int` is for width 8. -/
def fmt_hex : (width : Nat) → Nat → List Nat
  | 0, _ => []
  | w + 1, n => fmt_hex w (n / 16) ++ [hex_digit (n % 16)]

/-- Lines 52-54: `return isprint(byte) ? byte : '.';` -/
def byte_to_ascii (byte : Nat) : Nat := if isprint byte then byte else 46

/-- The read `data[offset + col]`, which the code performs only under the guard
`offset + col < file_size`. -/
def data_at (data : List Nat) (index : Int) : Nat := data.getD index.toNat 0

/-- Lines 74-85: one turn of the first `col` loop, the hexadecimal cell of a column. -/
def hex_cell (data : List Nat) (file_size selected_byte offset col : Int) : List Piece :=
  (if offset + col < file_size then
    if offset + col = selected_byte then
      [{ text := fmt_hex 2 (data_at data (offset + col)), reverse := true }]
    else
      [{ text := fmt_hex 2 (data_at data (offset + col)), reverse := false }]
  else
    [{ text := [32, 32], reverse := false }])
  ++ [{ text := [32], reverse := false }]

/-- Lines 90-94: one turn of the second `col` loop, the character of a column. -/
def ascii_cell (data : List Nat) (file_size offset col : Int) : Piece :=
  if offset + col < file_size then
    { text := [byte_to_ascii (data_at data (offset + col))], reverse := false }
  else
    { text := [32], reverse := false }

/-- What one turn of the `row` loop writes: the offset of the row, the sixteen cells of
the first `col` loop and the sixteen characters of the second. -/
structure Row where
  offset : Int
  hex : List (List Piece)
  ascii : List Piece
  deriving Repr, DecidableEq

/-- Lines 72-97: the body of the `row` loop after the `break` test. -/
def display_row (data : List Nat) (file_size selected_byte offset : Int) : Row :=
  { offset := offset
    hex := (List.range BYTES_PER_LINE.toNat).map
      (fun col : Nat => hex_cell data file_size selected_byte offset (col : Int))
    ascii := (List.range BYTES_PER_LINE.toNat).map
      (fun col : Nat => ascii_cell data file_size offset (col : Int)) }

/-- The pieces of a row in the order they are written: `"%08x - "`, the cells, `"- "`,
the characters, `"\n"`. -/
def Row.pieces (r : Row) : List Piece :=
  [{ text := fmt_hex 8 r.offset.toNat ++ [32, 45, 32], reverse := false }]
  ++ r.hex.flatten
  ++ [{ text := [45, 32], reverse := false }]
  ++ r.ascii
  ++ [{ text := [10], reverse := false }]

/-- Lines 68-98: the `row` loop, with `n` turns left before `row < max_visible_rows`
fails; the `break` of line 70 ends it early. -/
def display_loop (data : List Nat) (file_size selected_byte start_line : Int) :
    (n : Nat) → (row : Int) → List Row
  | 0, _ => []
  | n + 1, row =>
    let offset := (start_line + row) * BYTES_PER_LINE
    if offset ≥ file_size then []
    else display_row data file_size selected_byte offset ::
      display_loop data file_size selected_byte start_line n (row + 1)

/-- The rows that `display_hex_editor` writes (lines 65-98). -/
def display_rows (data : List Nat) (file_size selected_byte : Int) : List Row :=
  display_loop data file_size selected_byte (start_line selected_byte) MAX_ROWS.toNat 0

/-- Everything `display_hex_editor` writes to the cleared window, piece by piece. -/
def display_hex_editor (data : List Nat) (file_size selected_byte : Int) : List Piece :=
  ((display_rows data file_size selected_byte).map Row.pieces).flatten

/-! ## The terminal over a whole run -/

/-- The events of a run of `hex_editor` that concern the terminal and the end of the
process. -/
inductive Event where
  /-- line 106, `initscr()`: the terminal enters curses mode -/
  | initscr
  /-- line 154, `endwin()`: the terminal is restored -/
  | endwin
  /-- lines 20, 30 and 44, `exit(EXIT_FAILURE)` in `load_file` and `save_file` -/
  | exit_failure
  /-- the end of `hex_editor`: control is back in `main`, which returns -/
  | returned
  deriving Repr, DecidableEq

/-- The events of `hex_editor` in order. `load` is what `load_file` yields: the
contents, or `none` when `fopen` or `malloc` fails and `load_file` exits. `save_opens`
tells whether the `fopen` of `save_file` succeeds. A run still waiting for a key has
produced the events so far. -/
def terminal_events (K : Curses) (load : Option (List Nat)) (keys : List Int)
    (save_opens : Bool) : List Event :=
  Event.initscr ::
    match load with
    | none => [Event.exit_failure]
    | some contents =>
      match hex_editor K contents keys with
      | .saved _ _ => if save_opens then [Event.endwin, Event.returned] else [Event.exit_failure]
      | .waiting _ => []
      | .fault _ => []

/-- An editor state used in the worked instances: forty zero bytes, focus at offset 20,
no edit in progress. -/
def sample : Editor :=
  { data := List.replicate 40 0, selected_byte := 20, edit_mode := 0, edit_value := 0 }

/-! ## Auxiliary facts -/

theorem isxdigit_bounds {ch : Int} (h : isxdigit ch = true) : 48 ≤ ch ∧ ch ≤ 102 := by
  simp only [isxdigit, isdigit, Bool.or_eq_true, decide_eq_true_eq] at h
  omega

theorem hex_value_bounds {ch : Int} (h : isxdigit ch = true) :
    0 ≤ hex_value ch ∧ hex_value ch ≤ 15 := by
  simp only [isxdigit, isdigit, Bool.or_eq_true, decide_eq_true_eq] at h
  unfold hex_value tolower isdigit
  split_ifs <;> simp only [decide_eq_true_eq] at * <;> omega

theorem nibbles_combine (a b : Nat) (ha : a < 16) (hb : b < 16) :
    ((a <<< 4) % 256 ||| b) % 256 = 16 * a + b := by
  interval_cases a <;> interval_cases b <;> rfl

/-- A hexadecimal digit is none of the arrow keys and is not `q`: `step` reaches
the `isxdigit` branch. -/
theorem step_xdigit (K : Curses) (hK : K.Sane) (file_size : Int) (s : Editor) (ch : Int)
    (h : isxdigit ch = true) :
    step K file_size s ch =
      if s.edit_mode = 0 then
        .next { s with edit_value := ((hex_value ch).toNat <<< 4) % 256, edit_mode := 1 }
      else if 0 ≤ s.selected_byte ∧ s.selected_byte < s.data.length then
        .next { data := s.data.set s.selected_byte.toNat
                  ((s.edit_value ||| (hex_value ch).toNat) % 256)
                selected_byte := s.selected_byte + 1
                edit_mode := 0
                edit_value := (s.edit_value ||| (hex_value ch).toNat) % 256 }
      else .fault s.selected_byte := by
  have hb := isxdigit_bounds h
  obtain ⟨h1, h2, h3, h4, -⟩ := hK
  have e1 : ch ≠ K.KEY_UP := by omega
  have e2 : ch ≠ K.KEY_DOWN := by omega
  have e3 : ch ≠ K.KEY_LEFT := by omega
  have e4 : ch ≠ K.KEY_RIGHT := by omega
  have e5 : ch ≠ CH_q := by
    simp only [isxdigit, isdigit, Bool.or_eq_true, decide_eq_true_eq] at h
    unfold CH_q
    omega
  simp only [step, e1, e2, e3, e4, e5, h, if_false, if_true]

/-! ## Nibble assembly -/

/-- C1. Nibble assembly: with the focus at offset `k` inside the buffer and no edit in
progress, typing two hexadecimal digits `h`, `l` leaves the editor with no edit in
progress, the focus at `k + 1`, the byte at `k` equal to `16 * value h + value l`, and
every other byte as it was. -/
theorem nibble_assembly (K : Curses) (hK : K.Sane) (data : List Nat) (k : Nat) (ev : Nat)
    (h l : Int) (hk : k < data.length) (hh : isxdigit h = true) (hl : isxdigit l = true) :
    ∃ s : Editor,
      loop K data.length
        { data := data, selected_byte := k, edit_mode := 0, edit_value := ev } [h, l]
        = .waiting s ∧
      s.edit_mode = 0 ∧ s.selected_byte = k + 1 ∧
      s.data.length = data.length ∧
      ((s.data[k]? : Option Nat) : Option Int) = some (16 * hex_value h + hex_value l) ∧
      ∀ j : Nat, j ≠ k → s.data[j]? = data[j]? := by
  obtain ⟨hh0, hh15⟩ := hex_value_bounds hh
  obtain ⟨hl0, hl15⟩ := hex_value_bounds hl
  have hc := nibbles_combine (hex_value h).toNat (hex_value l).toNat (by omega) (by omega)
  refine ⟨{ data := data.set k (16 * (hex_value h).toNat + (hex_value l).toNat)
            selected_byte := k + 1, edit_mode := 0
            edit_value := 16 * (hex_value h).toNat + (hex_value l).toNat }, ?_, rfl, rfl, ?_, ?_, ?_⟩
  · have hk' : ((k : Int) < (data.length : Int)) := by exact_mod_cast hk
    simp [loop, step_xdigit K hK _ _ _ hh, step_xdigit K hK _ _ _ hl, hc, hk']
  · simp
  · simp [List.getElem?_set_self hk]
    omega
  · intro j hj
    simp [List.getElem?_set_ne (Ne.symm hj)]

/-- C1, at an instance: in a three-byte buffer with the focus at offset 1, typing `4`
(code 52) then `a` (code 97) stores 0x4A = 74 at offset 1. -/
theorem nibble_assembly_witness :
    ncurses.Sane ∧ 1 < [7, 8, 9].length ∧ isxdigit 52 = true ∧ isxdigit 97 = true ∧
    ∃ s : Editor,
      loop ncurses ([7, 8, 9] : List Nat).length
        { data := [7, 8, 9], selected_byte := (1 : Nat), edit_mode := 0, edit_value := 0 }
        [52, 97] = .waiting s ∧
      s.edit_mode = 0 ∧ s.selected_byte = (1 : Nat) + 1 ∧
      s.data.length = ([7, 8, 9] : List Nat).length ∧
      ((s.data[1]? : Option Nat) : Option Int) = some (16 * hex_value 52 + hex_value 97) ∧
      ∀ j : Nat, j ≠ 1 → s.data[j]? = ([7, 8, 9] : List Nat)[j]? :=
  ⟨by decide, by decide, by decide, by decide,
    nibble_assembly ncurses (by decide) [7, 8, 9] 1 0 52 97 (by decide) (by decide) (by decide)⟩

/-! ## The viewport -/

theorem tdiv_bytes_per_line {f : Int} (hf : 0 ≤ f) : Int.tdiv f BYTES_PER_LINE = f / 16 := by
  unfold BYTES_PER_LINE
  exact Int.tdiv_eq_ediv hf (by decide)

theorem tdiv_max_rows : Int.tdiv MAX_ROWS 2 = 12 := by decide

/-- C4. Viewport start row: the first line drawn is
`max 0 (focus_offset / 16 - 24 / 2)`, the divisions truncating toward zero, and it is
never negative. -/
theorem start_line_eq_max (focus_offset : Int) :
    start_line focus_offset = max 0 (Int.tdiv focus_offset 16 - Int.tdiv 24 2) ∧
    0 ≤ start_line focus_offset := by
  have e : start_line focus_offset =
      if Int.tdiv focus_offset 16 - Int.tdiv 24 2 < 0 then 0
      else Int.tdiv focus_offset 16 - Int.tdiv 24 2 := rfl
  rw [e]
  constructor
  · split_ifs with h
    · exact (max_eq_left (le_of_lt h)).symm
    · exact (max_eq_right (not_lt.mp h)).symm
  · split_ifs with h
    · exact le_refl 0
    · exact not_lt.mp h

/-- C5. Focus row inside the window: when the focus row `focus_offset / 16` is at least
`24 / 2`, it lies in `[start_line, start_line + 24)`. -/
theorem focus_row_in_window (focus_offset : Int)
    (h : Int.tdiv focus_offset BYTES_PER_LINE ≥ Int.tdiv MAX_ROWS 2) :
    start_line focus_offset ≤ Int.tdiv focus_offset BYTES_PER_LINE ∧
    Int.tdiv focus_offset BYTES_PER_LINE < start_line focus_offset + MAX_ROWS := by
  have e : start_line focus_offset =
      if Int.tdiv focus_offset BYTES_PER_LINE - Int.tdiv MAX_ROWS 2 < 0 then 0
      else Int.tdiv focus_offset BYTES_PER_LINE - Int.tdiv MAX_ROWS 2 := rfl
  rw [e, tdiv_max_rows] at *
  have hm : MAX_ROWS = 24 := rfl
  rw [hm]
  split_ifs with h0 <;> omega

/-- C5, at focus offset 400: row 25 lies in the window `[13, 37)`. -/
theorem focus_row_in_window_witness :
    Int.tdiv 400 BYTES_PER_LINE ≥ Int.tdiv MAX_ROWS 2 ∧
    start_line 400 ≤ Int.tdiv 400 BYTES_PER_LINE ∧
    Int.tdiv 400 BYTES_PER_LINE < start_line 400 + MAX_ROWS :=
  ⟨by decide, focus_row_in_window 400 (by decide)⟩

/-- C6. Monotonicity of the viewport: for focus offsets `0 ≤ a ≤ b` the first line drawn
for `a` is at most the first line drawn for `b`. -/
theorem start_line_mono (a b : Int) (ha : 0 ≤ a) (hab : a ≤ b) :
    start_line a ≤ start_line b := by
  have ea : start_line a =
      if Int.tdiv a BYTES_PER_LINE - Int.tdiv MAX_ROWS 2 < 0 then 0
      else Int.tdiv a BYTES_PER_LINE - Int.tdiv MAX_ROWS 2 := rfl
  have eb : start_line b =
      if Int.tdiv b BYTES_PER_LINE - Int.tdiv MAX_ROWS 2 < 0 then 0
      else Int.tdiv b BYTES_PER_LINE - Int.tdiv MAX_ROWS 2 := rfl
  rw [ea, eb, tdiv_max_rows, tdiv_bytes_per_line ha, tdiv_bytes_per_line (le_trans ha hab)]
  split_ifs <;> omega

/-- C6, at the offsets 100 and 500. -/
theorem start_line_mono_witness :
    (0 : Int) ≤ 100 ∧ (100 : Int) ≤ 500 ∧ start_line 100 ≤ start_line 500 :=
  ⟨by decide, by decide, start_line_mono 100 500 (by decide) (by decide)⟩

/-! ## Navigation -/

theorem step_up (K : Curses) (file_size : Int) (s : Editor) :
    step K file_size s K.KEY_UP =
      if s.selected_byte ≥ BYTES_PER_LINE then
        .next { s with selected_byte := s.selected_byte - BYTES_PER_LINE }
      else .next s := by
  simp only [step, if_true]

theorem step_down (K : Curses) (hK : K.Sane) (file_size : Int) (s : Editor) :
    step K file_size s K.KEY_DOWN =
      if s.selected_byte + BYTES_PER_LINE < file_size then
        .next { s with selected_byte := s.selected_byte + BYTES_PER_LINE }
      else .next s := by
  obtain ⟨-, -, -, -, h1, -⟩ := hK
  simp only [step, Ne.symm h1, if_false, if_true]

theorem step_left (K : Curses) (hK : K.Sane) (file_size : Int) (s : Editor) :
    step K file_size s K.KEY_LEFT =
      if s.selected_byte > 0 then .next { s with selected_byte := s.selected_byte - 1 }
      else .next s := by
  obtain ⟨-, -, -, -, -, h2, -, h4, -⟩ := hK
  simp only [step, Ne.symm h2, Ne.symm h4, if_false, if_true]

theorem step_right (K : Curses) (hK : K.Sane) (file_size : Int) (s : Editor) :
    step K file_size s K.KEY_RIGHT =
      if s.selected_byte < file_size - 1 then
        .next { s with selected_byte := s.selected_byte + 1 }
      else .next s := by
  obtain ⟨-, -, -, -, -, -, h3, -, h5, h6⟩ := hK
  simp only [step, Ne.symm h3, Ne.symm h5, Ne.symm h6, if_false, if_true]

/-- C8. Up, Down and Left: with buffer length `L` and focus `f`, Up gives `f - 16` if
`f - 16 ≥ 0` and `f` otherwise; Down gives `f + 16` if `f + 16 < L` and `f` otherwise;
Left gives `f - 1` if `f - 1 ≥ 0` and `f` otherwise.  Nothing else of the editor state
changes. -/
theorem up_down_left (K : Curses) (hK : K.Sane) (s : Editor) :
    step K s.data.length s K.KEY_UP =
      .next { s with selected_byte :=
                if s.selected_byte - 16 ≥ 0 then s.selected_byte - 16 else s.selected_byte } ∧
    step K s.data.length s K.KEY_DOWN =
      .next { s with selected_byte :=
                if s.selected_byte + 16 < s.data.length then s.selected_byte + 16
                else s.selected_byte } ∧
    step K s.data.length s K.KEY_LEFT =
      .next { s with selected_byte :=
                if s.selected_byte - 1 ≥ 0 then s.selected_byte - 1 else s.selected_byte } := by
  have hb : BYTES_PER_LINE = 16 := rfl
  refine ⟨?_, ?_, ?_⟩
  · rw [step_up, hb]
    by_cases h : s.selected_byte ≥ 16
    · have h' : s.selected_byte - 16 ≥ 0 := by omega
      simp only [h, h', if_true]
    · have h' : ¬ (s.selected_byte - 16 ≥ 0) := by omega
      simp only [h, h', if_false]
  · rw [step_down K hK, hb]
    by_cases h : s.selected_byte + 16 < s.data.length
    · simp only [h, if_true]
    · simp only [h, if_false]
  · rw [step_left K hK]
    by_cases h : s.selected_byte > 0
    · have h' : s.selected_byte - 1 ≥ 0 := by omega
      simp only [h, h', if_true]
    · have h' : ¬ (s.selected_byte - 1 ≥ 0) := by omega
      simp only [h, h', if_false]

/-- C8, in a 40-byte buffer with the focus at offset 20. -/
theorem up_down_left_witness :
    ncurses.Sane ∧
    (step ncurses sample.data.length sample ncurses.KEY_UP =
      .next { sample with selected_byte :=
                if sample.selected_byte - 16 ≥ 0 then sample.selected_byte - 16
                else sample.selected_byte } ∧
    step ncurses sample.data.length sample ncurses.KEY_DOWN =
      .next { sample with selected_byte :=
                if sample.selected_byte + 16 < sample.data.length then sample.selected_byte + 16
                else sample.selected_byte } ∧
    step ncurses sample.data.length sample ncurses.KEY_LEFT =
      .next { sample with selected_byte :=
                if sample.selected_byte - 1 ≥ 0 then sample.selected_byte - 1
                else sample.selected_byte }) :=
  ⟨by decide, up_down_left ncurses (by decide) sample⟩

/-- C9, as the code has it. Right: with buffer length `L` and focus `f`, Right gives
`f + 1` exactly when `f + 1 < L` (that is, `f < L - 1`), and `f` otherwise: the last
byte can be reached, and Right does nothing there. -/
theorem right_moves_below_length (K : Curses) (hK : K.Sane) (s : Editor) :
    step K s.data.length s K.KEY_RIGHT =
      .next { s with selected_byte :=
                if s.selected_byte + 1 < s.data.length then s.selected_byte + 1
                else s.selected_byte } := by
  rw [step_right K hK]
  by_cases h : s.selected_byte < (s.data.length : Int) - 1
  · have h' : s.selected_byte + 1 < s.data.length := by omega
    simp only [h, h', if_true]
  · have h' : ¬ (s.selected_byte + 1 < s.data.length) := by omega
    simp only [h, h', if_false]

/-- C9, in a two-byte buffer with the focus at offset 0. -/
theorem right_moves_below_length_witness :
    ncurses.Sane ∧
    step ncurses ([5, 6] : List Nat).length ⟨[5, 6], 0, 0, 0⟩ ncurses.KEY_RIGHT =
      .next { (⟨[5, 6], 0, 0, 0⟩ : Editor) with selected_byte :=
                if (⟨[5, 6], 0, 0, 0⟩ : Editor).selected_byte + 1
                    < (⟨[5, 6], 0, 0, 0⟩ : Editor).data.length then
                  (⟨[5, 6], 0, 0, 0⟩ : Editor).selected_byte + 1
                else (⟨[5, 6], 0, 0, 0⟩ : Editor).selected_byte } :=
  ⟨by decide, right_moves_below_length ncurses (by decide) ⟨[5, 6], 0, 0, 0⟩⟩

/-- C9 as written fails: in a two-byte buffer (`L = 2`) with the focus at `f = 0`, Right
moves the focus to 1 although `f + 1 < L - 1` is false. -/
theorem right_reaches_last_byte :
    step ncurses ([5, 6] : List Nat).length ⟨[5, 6], 0, 0, 0⟩ ncurses.KEY_RIGHT
      = .next ⟨[5, 6], 1, 0, 0⟩ ∧
    ¬ ((0 : Int) + 1 < (([5, 6] : List Nat).length : Int) - 1) ∧
    step ncurses ([5, 6] : List Nat).length ⟨[5, 6], 0, 0, 0⟩ ncurses.KEY_RIGHT
      ≠ .next ⟨[5, 6], if (0 : Int) + 1 < (([5, 6] : List Nat).length : Int) - 1 then 0 + 1 else 0,
                0, 0⟩ := by
  decide

/-- C10. Boundary no-ops: at focus 0, Up and Left change nothing; at focus `L - 1`,
Down and Right change nothing (for every buffer, the non-empty ones included). -/
theorem boundary_noops (K : Curses) (hK : K.Sane) (data : List Nat) (mode : Int) (ev : Nat) :
    step K data.length ⟨data, 0, mode, ev⟩ K.KEY_UP = .next ⟨data, 0, mode, ev⟩ ∧
    step K data.length ⟨data, 0, mode, ev⟩ K.KEY_LEFT = .next ⟨data, 0, mode, ev⟩ ∧
    step K data.length ⟨data, (data.length : Int) - 1, mode, ev⟩ K.KEY_DOWN
      = .next ⟨data, (data.length : Int) - 1, mode, ev⟩ ∧
    step K data.length ⟨data, (data.length : Int) - 1, mode, ev⟩ K.KEY_RIGHT
      = .next ⟨data, (data.length : Int) - 1, mode, ev⟩ := by
  have hb : BYTES_PER_LINE = 16 := rfl
  refine ⟨?_, ?_, ?_, ?_⟩
  · rw [step_up, hb]
    have h : ¬ ((0 : Int) ≥ 16) := by omega
    simp only [h, if_false]
  · rw [step_left K hK]
    have h : ¬ ((0 : Int) > 0) := by omega
    simp only [h, if_false]
  · rw [step_down K hK, hb]
    have h : ¬ ((data.length : Int) - 1 + 16 < data.length) := by omega
    simp only [h, if_false]
  · rw [step_right K hK]
    have h : ¬ ((data.length : Int) - 1 < (data.length : Int) - 1) := by omega
    simp only [h, if_false]

/-- C10, in a three-byte buffer. -/
theorem boundary_noops_witness :
    ncurses.Sane ∧
    step ncurses ([7, 8, 9] : List Nat).length ⟨[7, 8, 9], 0, 0, 0⟩ ncurses.KEY_UP
      = .next ⟨[7, 8, 9], 0, 0, 0⟩ ∧
    step ncurses ([7, 8, 9] : List Nat).length ⟨[7, 8, 9], 0, 0, 0⟩ ncurses.KEY_LEFT
      = .next ⟨[7, 8, 9], 0, 0, 0⟩ ∧
    step ncurses ([7, 8, 9] : List Nat).length
        ⟨[7, 8, 9], (([7, 8, 9] : List Nat).length : Int) - 1, 0, 0⟩ ncurses.KEY_DOWN
      = .next ⟨[7, 8, 9], (([7, 8, 9] : List Nat).length : Int) - 1, 0, 0⟩ ∧
    step ncurses ([7, 8, 9] : List Nat).length
        ⟨[7, 8, 9], (([7, 8, 9] : List Nat).length : Int) - 1, 0, 0⟩ ncurses.KEY_RIGHT
      = .next ⟨[7, 8, 9], (([7, 8, 9] : List Nat).length : Int) - 1, 0, 0⟩ :=
  ⟨by decide, boundary_noops ncurses (by decide) [7, 8, 9] 0 0⟩

/-! ## Sessions without a completed edit -/

theorem step_quit (K : Curses) (hK : K.Sane) (file_size : Int) (s : Editor) :
    step K file_size s CH_q = .quit s := by
  obtain ⟨h1, h2, h3, h4, -⟩ := hK
  have hq : CH_q = 113 := rfl
  have e1 : CH_q ≠ K.KEY_UP := by omega
  have e2 : CH_q ≠ K.KEY_DOWN := by omega
  have e3 : CH_q ≠ K.KEY_LEFT := by omega
  have e4 : CH_q ≠ K.KEY_RIGHT := by omega
  simp only [step, e1, e2, e3, e4, if_false, if_true]

/-- A key that is no hexadecimal digit either ends the loop or leaves the block and the
edit mode alone. -/
theorem step_not_xdigit (K : Curses) (file_size : Int) (s : Editor) (ch : Int)
    (h : isxdigit ch = false) :
    step K file_size s ch = .quit s ∨
    ∃ t : Editor, step K file_size s ch = .next t ∧ t.data = s.data ∧
      t.edit_mode = s.edit_mode := by
  simp only [step, h, Bool.false_eq_true, if_false]
  split_ifs
  all_goals first
    | exact Or.inl rfl
    | exact Or.inr ⟨_, rfl, rfl, rfl⟩

theorem loop_without_pair (K : Curses) (hK : K.Sane) (file_size : Int) :
    ∀ (keys : List Int) (s : Editor),
      ((keys.filter isxdigit).length = 0 ∨
        (s.edit_mode = 0 ∧ (keys.filter isxdigit).length ≤ 1)) →
      loop K file_size s (keys ++ [CH_q]) = .saved s.data file_size := by
  intro keys
  induction keys with
  | nil =>
    intro s _
    simp only [List.nil_append, loop, step_quit K hK]
  | cons ch rest ih =>
    intro s hs
    cases hx : isxdigit ch with
    | false =>
      have hf : (ch :: rest).filter isxdigit = rest.filter isxdigit := by
        simp [List.filter_cons, hx]
      rw [hf] at hs
      rcases step_not_xdigit K file_size s ch hx with hq | ⟨t, ht, hd, hm⟩
      · simp only [List.cons_append, loop, hq]
      · simp only [List.cons_append, loop, ht]
        have ht' := ih t (by rw [hm]; exact hs)
        rw [hd] at ht'
        exact ht'
    | true =>
      have hf : ((ch :: rest).filter isxdigit).length = (rest.filter isxdigit).length + 1 := by
        simp [List.filter_cons, hx]
      rw [hf] at hs
      have hm : s.edit_mode = 0 := by
        rcases hs with h0 | ⟨h0, -⟩
        · omega
        · exact h0
      have hr : (rest.filter isxdigit).length = 0 := by
        rcases hs with h0 | ⟨-, h1⟩ <;> omega
      simp only [List.cons_append, loop, step_xdigit K hK _ _ _ hx, hm, if_true]
      exact ih { s with edit_value := ((hex_value ch).toNat <<< 4) % 256, edit_mode := 1 }
        (Or.inl hr)

/-- C7. Round trip without edits: when the keys typed before the final `q` hold at most
one hexadecimal digit (so no pair of digits is completed), the session reaches
`save_file` with the block and the size it loaded, and `save_file` writes exactly the
loaded bytes. -/
theorem round_trip_without_edits (K : Curses) (hK : K.Sane) (contents : List Nat)
    (keys : List Int) (h : (keys.filter isxdigit).length ≤ 1) :
    hex_editor K contents (keys ++ [CH_q]) = .saved contents contents.length ∧
    save_file contents contents.length = contents := by
  constructor
  · exact loop_without_pair K hK contents.length keys (initial contents) (Or.inr ⟨rfl, h⟩)
  · simp [save_file]

/-- C7, for a three-byte file and the keys Right, `4`, Down, `x`, then `q`. -/
theorem round_trip_without_edits_witness :
    ncurses.Sane ∧ (([261, 52, 258, 120] : List Int).filter isxdigit).length ≤ 1 ∧
    hex_editor ncurses [1, 2, 3] ([261, 52, 258, 120] ++ [CH_q])
      = .saved [1, 2, 3] ([1, 2, 3] : List Nat).length ∧
    save_file [1, 2, 3] ([1, 2, 3] : List Nat).length = [1, 2, 3] :=
  ⟨by decide, by decide,
    round_trip_without_edits ncurses (by decide) [1, 2, 3] [261, 52, 258, 120] (by decide)⟩

/-! ## The commit of a byte does not check the upper bound -/

/-- C3, at a one-byte file: after `4` and `a` the focus offset is 1, which is the length
of the buffer and so not below it. -/
theorem focus_reaches_length :
    hex_editor ncurses [0] [52, 97] = .waiting ⟨[74], 1, 0, 74⟩ ∧
    ¬ ((1 : Int) < (([0] : List Nat).length : Int)) := by
  decide

/-- C2, at a one-byte file: the second pair of digits stores at offset 1, outside the
one-byte block. -/
theorem second_pair_stores_past_end :
    hex_editor ncurses [0] [52, 97, 52, 97] = .fault 1 ∧
    ¬ ((1 : Int) < (([0] : List Nat).length : Int)) := by
  decide

/-! ## Navigation inside the buffer -/

theorem nav_up (K : Curses) (L : Int) (s : Editor) (h0 : 0 ≤ s.selected_byte)
    (h1 : s.selected_byte < L) :
    ∃ f : Int, step K L s K.KEY_UP = .next { s with selected_byte := f } ∧
      0 ≤ f ∧ f < L ∧ (f = s.selected_byte ∨ f = s.selected_byte - 16) := by
  have hb : BYTES_PER_LINE = 16 := rfl
  rw [step_up, hb]
  by_cases h : s.selected_byte ≥ 16
  · exact ⟨s.selected_byte - 16, by simp only [h, if_true], by omega, by omega, Or.inr rfl⟩
  · exact ⟨s.selected_byte, by simp only [h, if_false], h0, h1, Or.inl rfl⟩

theorem nav_down (K : Curses) (hK : K.Sane) (L : Int) (s : Editor) (h0 : 0 ≤ s.selected_byte)
    (h1 : s.selected_byte < L) :
    ∃ f : Int, step K L s K.KEY_DOWN = .next { s with selected_byte := f } ∧
      0 ≤ f ∧ f < L ∧ (f = s.selected_byte ∨ f = s.selected_byte + 16) := by
  have hb : BYTES_PER_LINE = 16 := rfl
  rw [step_down K hK, hb]
  by_cases h : s.selected_byte + 16 < L
  · exact ⟨s.selected_byte + 16, by simp only [h, if_true], by omega, h, Or.inr rfl⟩
  · exact ⟨s.selected_byte, by simp only [h, if_false], h0, h1, Or.inl rfl⟩

theorem nav_left (K : Curses) (hK : K.Sane) (L : Int) (s : Editor) (h0 : 0 ≤ s.selected_byte)
    (h1 : s.selected_byte < L) :
    ∃ f : Int, step K L s K.KEY_LEFT = .next { s with selected_byte := f } ∧
      0 ≤ f ∧ f < L ∧ (f = s.selected_byte ∨ f = s.selected_byte - 1) := by
  rw [step_left K hK]
  by_cases h : s.selected_byte > 0
  · exact ⟨s.selected_byte - 1, by simp only [h, if_true], by omega, by omega, Or.inr rfl⟩
  · exact ⟨s.selected_byte, by simp only [h, if_false], h0, h1, Or.inl rfl⟩

theorem nav_right (K : Curses) (hK : K.Sane) (L : Int) (s : Editor) (h0 : 0 ≤ s.selected_byte)
    (h1 : s.selected_byte < L) :
    ∃ f : Int, step K L s K.KEY_RIGHT = .next { s with selected_byte := f } ∧
      0 ≤ f ∧ f < L ∧ (f = s.selected_byte ∨ f = s.selected_byte + 1) := by
  rw [step_right K hK]
  by_cases h : s.selected_byte < L - 1
  · exact ⟨s.selected_byte + 1, by simp only [h, if_true], by omega, by omega, Or.inr rfl⟩
  · exact ⟨s.selected_byte, by simp only [h, if_false], h0, h1, Or.inl rfl⟩

/-- C11. Left and Right undo each other in the interior: at a focus `k` with
`0 < k < L - 1`, Left then Right ends at `k`, and Right then Left ends at `k`, with the
rest of the editor state untouched. -/
theorem left_right_inverse (K : Curses) (hK : K.Sane) (data : List Nat) (k mode : Int)
    (ev : Nat) (h0 : 0 < k) (h1 : k < (data.length : Int) - 1) :
    loop K data.length ⟨data, k, mode, ev⟩ [K.KEY_LEFT, K.KEY_RIGHT]
      = .waiting ⟨data, k, mode, ev⟩ ∧
    loop K data.length ⟨data, k, mode, ev⟩ [K.KEY_RIGHT, K.KEY_LEFT]
      = .waiting ⟨data, k, mode, ev⟩ := by
  have a1 : k > 0 := h0
  have a2 : k - 1 < (data.length : Int) - 1 := by omega
  have a3 : k + 1 > 0 := by omega
  constructor
  · simp only [loop, step_left K hK, step_right K hK, a1, a2, if_true, sub_add_cancel]
  · simp only [loop, step_left K hK, step_right K hK, h1, a3, if_true, add_sub_cancel_right]

/-- C11, in a three-byte buffer at the interior offset 1. -/
theorem left_right_inverse_witness :
    ncurses.Sane ∧ (0 : Int) < 1 ∧ (1 : Int) < (([7, 8, 9] : List Nat).length : Int) - 1 ∧
    loop ncurses ([7, 8, 9] : List Nat).length ⟨[7, 8, 9], 1, 0, 0⟩
        [ncurses.KEY_LEFT, ncurses.KEY_RIGHT] = .waiting ⟨[7, 8, 9], 1, 0, 0⟩ ∧
    loop ncurses ([7, 8, 9] : List Nat).length ⟨[7, 8, 9], 1, 0, 0⟩
        [ncurses.KEY_RIGHT, ncurses.KEY_LEFT] = .waiting ⟨[7, 8, 9], 1, 0, 0⟩ :=
  ⟨by decide, by decide, by decide,
    left_right_inverse ncurses (by decide) [7, 8, 9] 1 0 0 (by decide) (by decide)⟩

/-- C12. Navigation never leaves the valid range: from a focus `f` with `0 ≤ f < L`,
each of Up, Down, Left, Right leads to a focus `f'` with `0 ≤ f' < L` that is either
`f` itself or exactly the requested move (`f - 16`, `f + 16`, `f - 1`, `f + 1`); the
rest of the editor state is untouched. -/
theorem navigation_stays_in_range (K : Curses) (hK : K.Sane) (s : Editor)
    (h0 : 0 ≤ s.selected_byte) (h1 : s.selected_byte < s.data.length) :
    (∃ f : Int, step K s.data.length s K.KEY_UP = .next { s with selected_byte := f } ∧
      0 ≤ f ∧ f < s.data.length ∧ (f = s.selected_byte ∨ f = s.selected_byte - 16)) ∧
    (∃ f : Int, step K s.data.length s K.KEY_DOWN = .next { s with selected_byte := f } ∧
      0 ≤ f ∧ f < s.data.length ∧ (f = s.selected_byte ∨ f = s.selected_byte + 16)) ∧
    (∃ f : Int, step K s.data.length s K.KEY_LEFT = .next { s with selected_byte := f } ∧
      0 ≤ f ∧ f < s.data.length ∧ (f = s.selected_byte ∨ f = s.selected_byte - 1)) ∧
    (∃ f : Int, step K s.data.length s K.KEY_RIGHT = .next { s with selected_byte := f } ∧
      0 ≤ f ∧ f < s.data.length ∧ (f = s.selected_byte ∨ f = s.selected_byte + 1)) :=
  ⟨nav_up K _ s h0 h1, nav_down K hK _ s h0 h1, nav_left K hK _ s h0 h1,
    nav_right K hK _ s h0 h1⟩

/-- C12, in the forty-byte sample buffer with the focus at offset 20. -/
theorem navigation_stays_in_range_witness :
    ncurses.Sane ∧ 0 ≤ sample.selected_byte ∧ sample.selected_byte < sample.data.length ∧
    ((∃ f : Int, step ncurses sample.data.length sample ncurses.KEY_UP
        = .next { sample with selected_byte := f } ∧
      0 ≤ f ∧ f < sample.data.length ∧
      (f = sample.selected_byte ∨ f = sample.selected_byte - 16)) ∧
    (∃ f : Int, step ncurses sample.data.length sample ncurses.KEY_DOWN
        = .next { sample with selected_byte := f } ∧
      0 ≤ f ∧ f < sample.data.length ∧
      (f = sample.selected_byte ∨ f = sample.selected_byte + 16)) ∧
    (∃ f : Int, step ncurses sample.data.length sample ncurses.KEY_LEFT
        = .next { sample with selected_byte := f } ∧
      0 ≤ f ∧ f < sample.data.length ∧
      (f = sample.selected_byte ∨ f = sample.selected_byte - 1)) ∧
    (∃ f : Int, step ncurses sample.data.length sample ncurses.KEY_RIGHT
        = .next { sample with selected_byte := f } ∧
      0 ≤ f ∧ f < sample.data.length ∧
      (f = sample.selected_byte ∨ f = sample.selected_byte + 1))) :=
  ⟨by decide, by decide, by decide,
    navigation_stays_in_range ncurses (by decide) sample (by decide) (by decide)⟩

/-! ## Hexadecimal digits and other keys -/

theorem isxdigit_iff (c : Int) :
    isxdigit c = true ↔ (48 ≤ c ∧ c ≤ 57) ∨ (97 ≤ c ∧ c ≤ 102) ∨ (65 ≤ c ∧ c ≤ 70) := by
  simp only [isxdigit, isdigit, Bool.or_eq_true, decide_eq_true_eq, or_assoc]

theorem high_nibble (n : Nat) (h : n < 16) : (n <<< 4) % 256 = 16 * n := by
  rw [Nat.shiftLeft_eq]
  omega

/-- C16. Hexadecimal digits: with no edit in progress a key starts an edit exactly when
it is one of `0`-`9`, `a`-`f`, `A`-`F`; the digit `0 + d` has value `d`, the letters
`a + d` and `A + d` both have value `10 + d`; and such a key of value `v` sets the
pending value to `16 * v` and the edit mode to 1, leaving buffer and focus alone. -/
theorem hex_digit_decoding (K : Curses) (hK : K.Sane) (data : List Nat) (f : Int) (ev : Nat) :
    (∀ c : Int,
      (∃ t : Editor, step K data.length ⟨data, f, 0, ev⟩ c = .next t ∧ t.edit_mode = 1) ↔
        (48 ≤ c ∧ c ≤ 57) ∨ (97 ≤ c ∧ c ≤ 102) ∨ (65 ≤ c ∧ c ≤ 70)) ∧
    (∀ d : Int, 0 ≤ d → d ≤ 9 → hex_value (48 + d) = d) ∧
    (∀ d : Int, 0 ≤ d → d ≤ 5 → hex_value (97 + d) = 10 + d ∧ hex_value (65 + d) = 10 + d) ∧
    (∀ c : Int, isxdigit c = true →
      step K data.length ⟨data, f, 0, ev⟩ c
        = .next ⟨data, f, 1, 16 * (hex_value c).toNat⟩) := by
  have hstart : ∀ c : Int, isxdigit c = true →
      step K data.length ⟨data, f, 0, ev⟩ c
        = .next ⟨data, f, 1, 16 * (hex_value c).toNat⟩ := by
    intro c hc
    obtain ⟨h0, h15⟩ := hex_value_bounds hc
    rw [step_xdigit K hK _ _ _ hc]
    simp only [if_true]
    rw [high_nibble _ (by omega)]
  refine ⟨?_, ?_, ?_, hstart⟩
  · intro c
    constructor
    · rintro ⟨t, ht, hm⟩
      by_contra hn
      have hx : isxdigit c = false := by
        rw [← isxdigit_iff] at hn
        simpa using hn
      rcases step_not_xdigit K data.length ⟨data, f, 0, ev⟩ c hx with hq | ⟨u, hu, -, hm'⟩
      · rw [hq] at ht
        cases ht
      · rw [hu] at ht
        cases ht
        rw [hm] at hm'
        have h10 : (1 : Int) = 0 := hm'
        omega
    · intro hc
      exact ⟨_, hstart c ((isxdigit_iff c).mpr hc), rfl⟩
  · intro d h0 h9
    have hd : isdigit (48 + d) = true := by
      simp only [isdigit, decide_eq_true_eq]
      omega
    simp only [hex_value, hd, if_true]
    omega
  · intro d h0 h5
    have hd1 : isdigit (97 + d) = false := by
      simp only [isdigit, decide_eq_false_iff_not]
      omega
    have hd2 : isdigit (65 + d) = false := by
      simp only [isdigit, decide_eq_false_iff_not]
      omega
    have hl1 : ¬ (65 ≤ 97 + d ∧ 97 + d ≤ 90) := by omega
    have hl2 : 65 ≤ 65 + d ∧ 65 + d ≤ 90 := by omega
    constructor
    · simp only [hex_value, hd1, tolower, hl1, if_false, Bool.false_eq_true]
      omega
    · simp only [hex_value, hd2, tolower, hl2, if_false, if_true, Bool.false_eq_true, and_self]
      omega

/-- C16, in a three-byte buffer with the focus at offset 1. -/
theorem hex_digit_decoding_witness :
    ncurses.Sane ∧
    ((∀ c : Int,
      (∃ t : Editor, step ncurses ([7, 8, 9] : List Nat).length ⟨[7, 8, 9], 1, 0, 0⟩ c = .next t ∧
          t.edit_mode = 1) ↔
        (48 ≤ c ∧ c ≤ 57) ∨ (97 ≤ c ∧ c ≤ 102) ∨ (65 ≤ c ∧ c ≤ 70)) ∧
    (∀ d : Int, 0 ≤ d → d ≤ 9 → hex_value (48 + d) = d) ∧
    (∀ d : Int, 0 ≤ d → d ≤ 5 → hex_value (97 + d) = 10 + d ∧ hex_value (65 + d) = 10 + d) ∧
    (∀ c : Int, isxdigit c = true →
      step ncurses ([7, 8, 9] : List Nat).length ⟨[7, 8, 9], 1, 0, 0⟩ c
        = .next ⟨[7, 8, 9], 1, 1, 16 * (hex_value c).toNat⟩)) :=
  ⟨by decide, hex_digit_decoding ncurses (by decide) [7, 8, 9] 1 0⟩

/-- C17. Other input is ignored: a key that is none of the four arrow keys, not `q` and
not a hexadecimal digit leaves the whole editor state as it was, and the loop goes on. -/
theorem other_input_ignored (K : Curses) (file_size : Int) (s : Editor) (ch : Int)
    (hu : ch ≠ K.KEY_UP) (hd : ch ≠ K.KEY_DOWN) (hl : ch ≠ K.KEY_LEFT) (hr : ch ≠ K.KEY_RIGHT)
    (hq : ch ≠ CH_q) (hx : isxdigit ch = false) :
    step K file_size s ch = .next s := by
  simp only [step, hu, hd, hl, hr, hq, hx, if_false, Bool.false_eq_true]

/-- C17, for the key `x` (code 120) typed while a nibble is pending. -/
theorem other_input_ignored_witness :
    (120 : Int) ≠ ncurses.KEY_UP ∧ (120 : Int) ≠ ncurses.KEY_DOWN ∧
    (120 : Int) ≠ ncurses.KEY_LEFT ∧ (120 : Int) ≠ ncurses.KEY_RIGHT ∧
    (120 : Int) ≠ CH_q ∧ isxdigit 120 = false ∧
    step ncurses 3 ⟨[7, 8, 9], 2, 1, 64⟩ 120 = .next ⟨[7, 8, 9], 2, 1, 64⟩ :=
  ⟨by decide, by decide, by decide, by decide, by decide, by decide,
    other_input_ignored ncurses 3 ⟨[7, 8, 9], 2, 1, 64⟩ 120
      (by decide) (by decide) (by decide) (by decide) (by decide) (by decide)⟩

/-! ## Navigation while a nibble is pending -/

/-- An arrow key changes at most the focus, whatever the state. -/
theorem step_nav_frame (K : Curses) (hK : K.Sane) (L : Int) (s : Editor) (ch : Int)
    (hch : ch = K.KEY_UP ∨ ch = K.KEY_DOWN ∨ ch = K.KEY_LEFT ∨ ch = K.KEY_RIGHT) :
    ∃ f : Int, step K L s ch = .next { s with selected_byte := f } := by
  rcases hch with h | h | h | h <;> subst h
  · rw [step_up]
    split_ifs
    · exact ⟨_, rfl⟩
    · exact ⟨s.selected_byte, rfl⟩
  · rw [step_down K hK]
    split_ifs
    · exact ⟨_, rfl⟩
    · exact ⟨s.selected_byte, rfl⟩
  · rw [step_left K hK]
    split_ifs
    · exact ⟨_, rfl⟩
    · exact ⟨s.selected_byte, rfl⟩
  · rw [step_right K hK]
    split_ifs
    · exact ⟨_, rfl⟩
    · exact ⟨s.selected_byte, rfl⟩

/-- An arrow key typed at a focus inside `[0, L)` changes at most the focus, and keeps
it inside `[0, L)`. -/
theorem step_nav_in_range (K : Curses) (hK : K.Sane) (L : Int) (s : Editor) (ch : Int)
    (hch : ch = K.KEY_UP ∨ ch = K.KEY_DOWN ∨ ch = K.KEY_LEFT ∨ ch = K.KEY_RIGHT)
    (h0 : 0 ≤ s.selected_byte) (h1 : s.selected_byte < L) :
    ∃ f : Int, step K L s ch = .next { s with selected_byte := f } ∧ 0 ≤ f ∧ f < L := by
  rcases hch with h | h | h | h <;> subst h
  · obtain ⟨f, e, a, b, -⟩ := nav_up K L s h0 h1
    exact ⟨f, e, a, b⟩
  · obtain ⟨f, e, a, b, -⟩ := nav_down K hK L s h0 h1
    exact ⟨f, e, a, b⟩
  · obtain ⟨f, e, a, b, -⟩ := nav_left K hK L s h0 h1
    exact ⟨f, e, a, b⟩
  · obtain ⟨f, e, a, b, -⟩ := nav_right K hK L s h0 h1
    exact ⟨f, e, a, b⟩

/-- An arrow key changes at most the focus, whatever the focus is, and keeps a focus
that is inside `[0, L)` inside `[0, L)`. -/
theorem step_nav_any (K : Curses) (hK : K.Sane) (L : Int) (s : Editor) (ch : Int)
    (hch : ch = K.KEY_UP ∨ ch = K.KEY_DOWN ∨ ch = K.KEY_LEFT ∨ ch = K.KEY_RIGHT) :
    ∃ f : Int, step K L s ch = .next { s with selected_byte := f } ∧
      (0 ≤ s.selected_byte → s.selected_byte < L → 0 ≤ f ∧ f < L) := by
  by_cases h : 0 ≤ s.selected_byte ∧ s.selected_byte < L
  · obtain ⟨f, e, a, b⟩ := step_nav_in_range K hK L s ch hch h.1 h.2
    exact ⟨f, e, fun _ _ => ⟨a, b⟩⟩
  · obtain ⟨f, e⟩ := step_nav_frame K hK L s ch hch
    exact ⟨f, e, fun a b => absurd ⟨a, b⟩ h⟩

/-- A run of arrow keys from any focus ends at some focus `k`, with the block, the edit
mode and the pending value as they were; if it starts inside `[0, L)`, it ends inside
`[0, L)`. -/
theorem loop_navs (K : Curses) (hK : K.Sane) (L : Int) (data : List Nat) (mode : Int)
    (ev : Nat) :
    ∀ (navs : List Int),
      (∀ ch ∈ navs, ch = K.KEY_UP ∨ ch = K.KEY_DOWN ∨ ch = K.KEY_LEFT ∨ ch = K.KEY_RIGHT) →
      ∀ f : Int,
      ∃ k : Int, (0 ≤ f → f < L → 0 ≤ k ∧ k < L) ∧
        ∀ rest : List Int,
          loop K L ⟨data, f, mode, ev⟩ (navs ++ rest) = loop K L ⟨data, k, mode, ev⟩ rest := by
  intro navs
  induction navs with
  | nil =>
    intro _ f
    exact ⟨f, fun h0 h1 => ⟨h0, h1⟩, fun _ => rfl⟩
  | cons ch more ih =>
    intro hn f
    obtain ⟨g, hg, hgr⟩ :=
      step_nav_any K hK L ⟨data, f, mode, ev⟩ ch (hn ch (List.mem_cons_self _ _))
    obtain ⟨k, hkr, hk⟩ := ih (fun c hc => hn c (List.mem_cons_of_mem _ hc)) g
    refine ⟨k, fun h0 h1 => ?_, fun rest => ?_⟩
    · obtain ⟨g0, g1⟩ := hgr h0 h1
      exact hkr g0 g1
    · have e : loop K L ⟨data, f, mode, ev⟩ (ch :: (more ++ rest))
          = loop K L ⟨data, g, mode, ev⟩ (more ++ rest) := by
        simp only [loop, hg]
      exact e.trans (hk rest)

/-- C19. Navigation does not touch the edit in progress: an arrow key changes at most
the focus, in every state; so after a digit `h` typed at any focus `f` (also `f = L`,
the focus left by an edit of the last byte) and any arrow keys, the editor waits at some
focus `k` with the block unchanged, edit mode 1 and the pending value `16 * value h`;
`k` is inside the buffer if `f` was; and whenever `k` is inside the buffer, a second
digit `l` stores the byte `16 * value h + value l` at `k`, the focus at the time of the
second digit, and moves the focus on to `k + 1`. -/
theorem navigation_keeps_pending_edit (K : Curses) (hK : K.Sane) (data : List Nat) (f : Int)
    (ev : Nat) (h l : Int) (navs : List Int)
    (hh : isxdigit h = true) (hl : isxdigit l = true)
    (hn : ∀ ch ∈ navs,
      ch = K.KEY_UP ∨ ch = K.KEY_DOWN ∨ ch = K.KEY_LEFT ∨ ch = K.KEY_RIGHT) :
    (∀ (s : Editor) (ch : Int),
      ch = K.KEY_UP ∨ ch = K.KEY_DOWN ∨ ch = K.KEY_LEFT ∨ ch = K.KEY_RIGHT →
      ∃ g : Int, step K s.data.length s ch = .next { s with selected_byte := g }) ∧
    ∃ k : Int,
      loop K data.length ⟨data, f, 0, ev⟩ (h :: navs)
        = .waiting ⟨data, k, 1, 16 * (hex_value h).toNat⟩ ∧
      (0 ≤ f → f < data.length → 0 ≤ k ∧ k < data.length) ∧
      (0 ≤ k → k < data.length →
        loop K data.length ⟨data, f, 0, ev⟩ (h :: (navs ++ [l]))
          = .waiting ⟨data.set k.toNat (16 * (hex_value h).toNat + (hex_value l).toNat),
                      k + 1, 0, 16 * (hex_value h).toNat + (hex_value l).toNat⟩) := by
  refine ⟨fun s ch hch => step_nav_frame K hK _ s ch hch, ?_⟩
  obtain ⟨hh0, hh15⟩ := hex_value_bounds hh
  obtain ⟨hl0, hl15⟩ := hex_value_bounds hl
  obtain ⟨k, hkr, hk⟩ :=
    loop_navs K hK data.length data 1 (16 * (hex_value h).toNat) navs hn f
  have hfirst : step K data.length ⟨data, f, 0, ev⟩ h
      = .next ⟨data, f, 1, 16 * (hex_value h).toNat⟩ := by
    rw [step_xdigit K hK _ _ _ hh]
    simp only [if_true]
    rw [high_nibble _ (by omega)]
  have hc := nibbles_combine (hex_value h).toNat (hex_value l).toNat (by omega) (by omega)
  rw [high_nibble _ (by omega)] at hc
  refine ⟨k, ?_, hkr, ?_⟩
  · have e := hk []
    rw [List.append_nil] at e
    simp only [loop, hfirst]
    exact e
  · intro k0 k1
    simp only [loop, hfirst]
    rw [hk [l]]
    have hm : ¬ ((1 : Int) = 0) := by decide
    simp only [loop, step_xdigit K hK _ _ _ hl, hm, if_false, k0, k1, and_self, if_true, hc]

/-- C19, from the state a one-byte file is in after `4`, `a` (block `[74]`, focus 1,
which is the length): `5`, Left, `b` stores 0x5B = 91 at offset 0. -/
theorem navigation_keeps_pending_edit_witness :
    ncurses.Sane ∧ isxdigit 53 = true ∧ isxdigit 98 = true ∧
    (∀ ch ∈ ([260] : List Int), ch = ncurses.KEY_UP ∨ ch = ncurses.KEY_DOWN ∨
      ch = ncurses.KEY_LEFT ∨ ch = ncurses.KEY_RIGHT) ∧
    hex_editor ncurses [0] [52, 97] = .waiting ⟨[74], 1, 0, 74⟩ ∧
    loop ncurses ([74] : List Nat).length ⟨[74], 1, 0, 74⟩ (53 :: ([260] ++ [98]))
      = .waiting ⟨[91], 1, 0, 91⟩ ∧
    ((∀ (s : Editor) (ch : Int),
      ch = ncurses.KEY_UP ∨ ch = ncurses.KEY_DOWN ∨ ch = ncurses.KEY_LEFT ∨
        ch = ncurses.KEY_RIGHT →
      ∃ g : Int, step ncurses s.data.length s ch = .next { s with selected_byte := g }) ∧
    ∃ k : Int,
      loop ncurses ([74] : List Nat).length ⟨[74], 1, 0, 74⟩ (53 :: [260])
        = .waiting ⟨[74], k, 1, 16 * (hex_value 53).toNat⟩ ∧
      ((0 : Int) ≤ 1 → (1 : Int) < ([74] : List Nat).length →
        0 ≤ k ∧ k < ([74] : List Nat).length) ∧
      (0 ≤ k → k < ([74] : List Nat).length →
        loop ncurses ([74] : List Nat).length ⟨[74], 1, 0, 74⟩ (53 :: ([260] ++ [98]))
          = .waiting ⟨([74] : List Nat).set k.toNat
                        (16 * (hex_value 53).toNat + (hex_value 98).toNat),
                      k + 1, 0, 16 * (hex_value 53).toNat + (hex_value 98).toNat⟩)) :=
  ⟨by decide, by decide, by decide, by decide, by decide, by decide,
    navigation_keeps_pending_edit ncurses (by decide) [74] 1 74 53 98 [260]
      (by decide) (by decide) (by decide)⟩

/-! ## The rows of a render -/

theorem start_line_nonneg (f : Int) : 0 ≤ start_line f := by
  have e : start_line f =
      if Int.tdiv f BYTES_PER_LINE - Int.tdiv MAX_ROWS 2 < 0 then 0
      else Int.tdiv f BYTES_PER_LINE - Int.tdiv MAX_ROWS 2 := rfl
  rw [e]
  split_ifs <;> omega

theorem start_line_of_nonneg {f : Int} (hf : 0 ≤ f) : start_line f = max 0 (f / 16 - 12) := by
  have e : start_line f =
      if Int.tdiv f BYTES_PER_LINE - Int.tdiv MAX_ROWS 2 < 0 then 0
      else Int.tdiv f BYTES_PER_LINE - Int.tdiv MAX_ROWS 2 := rfl
  rw [e, tdiv_max_rows, tdiv_bytes_per_line hf]
  split_ifs <;> omega

/-- The `row` loop, unrolled: with `n` turns left at row `row`, it writes the rows
`row`, `row + 1`, ... as long as their offset is below `L`, at most `n` of them. -/
theorem display_loop_eq (data : List Nat) (L f S : Int) :
    ∀ (n : Nat) (row : Int),
      display_loop data L f S n row =
        (List.range (min n (max 0 ((L + 15) / 16 - (S + row))).toNat)).map
          (fun i : Nat => display_row data L f ((S + row + (i : Int)) * 16)) := by
  intro n
  induction n with
  | zero =>
    intro row
    simp [display_loop]
  | succ n ih =>
    intro row
    have hb : BYTES_PER_LINE = 16 := rfl
    simp only [display_loop, hb]
    by_cases h : (S + row) * 16 ≥ L
    · have hz : min (n + 1) (max 0 ((L + 15) / 16 - (S + row))).toNat = 0 := by omega
      simp only [h, if_true, hz, List.range_zero, List.map_nil]
    · have hz : min (n + 1) (max 0 ((L + 15) / 16 - (S + row))).toNat
          = min n (max 0 ((L + 15) / 16 - (S + (row + 1)))).toNat + 1 := by omega
      simp only [h, if_false, hz, List.range_succ_eq_map, List.map_cons, List.map_map, ih]
      refine congrArg₂ _ ?_ ?_
      · simp
      · apply List.map_congr_left
        intro i _
        simp only [Function.comp, Nat.succ_eq_add_one, Nat.cast_add, Nat.cast_one]
        congr 1
        ring

theorem display_rows_eq (data : List Nat) (L f : Int) :
    display_rows data L f =
      (List.range (min 24 (max 0 ((L + 15) / 16 - start_line f)).toNat)).map
        (fun i : Nat => display_row data L f ((start_line f + (i : Int)) * 16)) := by
  have hm : MAX_ROWS.toNat = 24 := rfl
  unfold display_rows
  rw [display_loop_eq, hm]
  simp only [add_zero]

/-- Filtering an initial segment of the naturals by a test that holds exactly below `k`
leaves the first `k` of them. -/
theorem filter_range_below (p : Nat → Bool) :
    ∀ (n k : Nat), k ≤ n → (∀ i, i < n → (p i = true ↔ i < k)) →
      (List.range n).filter p = List.range k := by
  intro n
  induction n with
  | zero =>
    intro k hk _
    have : k = 0 := by omega
    subst this
    rfl
  | succ n ih =>
    intro k hk hp
    rw [List.range_succ, List.filter_append]
    by_cases hkn : k ≤ n
    · have hn : p n = false := by
        have := hp n (by omega)
        cases hpn : p n
        · rfl
        · have := this.mp hpn
          omega
      rw [ih k hkn (fun i hi => hp i (by omega))]
      simp [List.filter_cons, hn]
    · have hk' : k = n + 1 := by omega
      subst hk'
      have hn : p n = true := (hp n (by omega)).mpr (by omega)
      rw [ih n (le_refl n) (fun i hi => by
        have := hp i (by omega)
        constructor
        · intro _
          exact hi
        · intro _
          exact this.mpr (by omega))]
      simp [List.filter_cons, hn, List.range_succ]

theorem rows_as_filter (data : List Nat) (L f : Int) :
    display_rows data L f =
      ((List.range 24).filter (fun i : Nat => decide ((start_line f + (i : Int)) * 16 < L))).map
        (fun i : Nat => display_row data L f ((start_line f + (i : Int)) * 16)) := by
  rw [display_rows_eq,
    filter_range_below (fun i : Nat => decide ((start_line f + (i : Int)) * 16 < L)) 24
      (min 24 (max 0 ((L + 15) / 16 - start_line f)).toNat) (by omega)
      (fun i hi => by
        simp only [decide_eq_true_eq]
        omega)]

/-- C13. Rows of a render: the rows written are those of the indices `i` in `[0, 24)`
with `(start_line + i) * 16 < L`, in increasing order, the row of index `i` having the
offset `(start_line + i) * 16`; their number is
`min 24 (max 0 (ceil (L / 16) - start_line))`, where `ceil (L / 16) = (L + 15) / 16`; no
row has an offset at or past `L`; and a 20-byte buffer with the focus at 0 gives the two
rows of offsets 0 and 16. -/
theorem rows_emitted (data : List Nat) (f : Int) :
    display_rows data data.length f =
      ((List.range 24).filter
          (fun i : Nat => decide ((start_line f + (i : Int)) * 16 < data.length))).map
        (fun i : Nat => display_row data data.length f ((start_line f + (i : Int)) * 16)) ∧
    (display_rows data data.length f).map Row.offset =
      ((List.range 24).filter
          (fun i : Nat => decide ((start_line f + (i : Int)) * 16 < data.length))).map
        (fun i : Nat => (start_line f + (i : Int)) * 16) ∧
    (display_rows data data.length f).length =
      min 24 (max 0 (((data.length : Int) + 15) / 16 - start_line f)).toNat ∧
    (∀ r ∈ display_rows data data.length f, r.offset < data.length) ∧
    (data.length = 20 → (display_rows data data.length 0).map Row.offset = [0, 16]) := by
  have hoff : ∀ g : Int, (display_rows data data.length g).map Row.offset =
      ((List.range 24).filter
          (fun i : Nat => decide ((start_line g + (i : Int)) * 16 < data.length))).map
        (fun i : Nat => (start_line g + (i : Int)) * 16) := by
    intro g
    rw [rows_as_filter, List.map_map]
    rfl
  refine ⟨rows_as_filter data _ f, hoff f, ?_, ?_, ?_⟩
  · rw [display_rows_eq, List.length_map, List.length_range]
  · intro r hr
    rw [rows_as_filter] at hr
    simp only [List.mem_map, List.mem_filter, decide_eq_true_eq] at hr
    obtain ⟨i, ⟨-, hi⟩, rfl⟩ := hr
    exact hi
  · intro h20
    rw [hoff 0, h20]
    decide

/-- C13, for twenty zero bytes with the focus at 0: two rows, of offsets 0 and 16. -/
theorem rows_emitted_witness :
    (List.replicate 20 0).length = 20 ∧
    (display_rows (List.replicate 20 0) (List.replicate 20 0).length 0).map Row.offset
      = [0, 16] :=
  ⟨by decide, (rows_emitted (List.replicate 20 0) 0).2.2.2.2 (by decide)⟩

/-! ## The cells of a row -/

theorem mem_display_rows {data : List Nat} {L f : Int} {r : Row}
    (hr : r ∈ display_rows data L f) :
    ∃ i : Nat, i < 24 ∧ (start_line f + (i : Int)) * 16 < L ∧
      r = display_row data L f ((start_line f + (i : Int)) * 16) := by
  rw [rows_as_filter] at hr
  simp only [List.mem_map, List.mem_filter, List.mem_range, decide_eq_true_eq] at hr
  obtain ⟨i, ⟨hi, hlt⟩, rfl⟩ := hr
  exact ⟨i, hi, hlt, rfl⟩

theorem hex_cell_eq (data : List Nat) (L f o c : Int) :
    hex_cell data L f o c =
      [{ text := if o + c < L then fmt_hex 2 (data_at data (o + c)) else [32, 32]
         reverse := decide (o + c < L ∧ o + c = f) },
       { text := [32], reverse := false }] := by
  unfold hex_cell
  split_ifs with h1 h2
  · subst h2
    simp [h1]
  · simp [h1, h2]
  · simp [h1]

theorem ascii_cell_eq (data : List Nat) (L o c : Int) :
    ascii_cell data L o c =
      { text := [if o + c < L then byte_to_ascii (data_at data (o + c)) else 32]
        reverse := false } := by
  unfold ascii_cell
  split_ifs <;> rfl

theorem fmt_hex_two (b : Nat) (hb : b < 256) :
    fmt_hex 2 b = [hex_digit (b / 16), hex_digit (b % 16)] := by
  have h : b / 16 % 16 = b / 16 := by omega
  simp only [fmt_hex, List.nil_append, List.singleton_append, h]

theorem hex_value_hex_digit (d : Nat) (hd : d < 16) :
    hex_value (hex_digit d) = d ∧
    ((48 ≤ hex_digit d ∧ hex_digit d ≤ 57) ∨ (97 ≤ hex_digit d ∧ hex_digit d ≤ 102)) := by
  interval_cases d <;> decide

/-- C14. Hex column cells: in every row written, with offset `o`, the sixteen cells are,
for the columns `c` of `[0, 16)`, the two hexadecimal digits of `data[o + c]` when
`o + c < L` and two blanks otherwise, each followed by one space, and the cell is in
reverse video exactly when `o + c < L` and `o + c` is the focus; the row has
`min 16 (L - o)` cells with a byte. The two digits of a byte `b` are those of `b / 16` and
`b % 16`, lowercase, which `hex_value` reads back. -/
theorem hex_cells (data : List Nat) (f : Int) :
    (∀ r ∈ display_rows data data.length f,
      r.hex = (List.range 16).map (fun c : Nat =>
        [({ text := if r.offset + (c : Int) < data.length
                    then fmt_hex 2 (data_at data (r.offset + (c : Int))) else [32, 32]
            reverse := decide (r.offset + (c : Int) < data.length ∧ r.offset + (c : Int) = f) }
            : Piece),
         { text := [32], reverse := false }]) ∧
      ((List.range 16).filter
          (fun c : Nat => decide (r.offset + (c : Int) < data.length))).length
        = min 16 ((data.length : Int) - r.offset).toNat) ∧
    (∀ b : Nat, b < 256 → fmt_hex 2 b = [hex_digit (b / 16), hex_digit (b % 16)]) ∧
    (∀ d : Nat, d < 16 → hex_value (hex_digit d) = d ∧
      ((48 ≤ hex_digit d ∧ hex_digit d ≤ 57) ∨ (97 ≤ hex_digit d ∧ hex_digit d ≤ 102))) := by
  refine ⟨?_, fmt_hex_two, hex_value_hex_digit⟩
  intro r hr
  obtain ⟨i, -, -, rfl⟩ := mem_display_rows hr
  constructor
  · have hb : BYTES_PER_LINE.toNat = 16 := rfl
    simp only [display_row, hb]
    apply List.map_congr_left
    intro c _
    exact hex_cell_eq _ _ _ _ _
  · simp only [display_row]
    rw [filter_range_below _ 16
      (min 16 ((data.length : Int) - (start_line f + (i : Int)) * 16).toNat) (by omega)
      (fun c hc => by
        simp only [decide_eq_true_eq]
        omega)]
    exact List.length_range _

/-- C14, for twenty zero bytes with the focus at 0: the row of offset 16 has 4 cells
with a byte, so 12 blank ones. -/
theorem hex_cells_witness :
    display_row (List.replicate 20 0) 20 0 16
      ∈ display_rows (List.replicate 20 0) (List.replicate 20 0).length 0 ∧
    ((List.range 16).filter
        (fun c : Nat => decide ((display_row (List.replicate 20 0) 20 0 16).offset + (c : Int)
          < (List.replicate 20 0).length))).length = 4 :=
  ⟨by decide, ((hex_cells (List.replicate 20 0) 0).1 _ (by decide)).2⟩

theorem one_char_each (h : Nat → Nat) (l : List Nat) :
    (((l.map (fun c : Nat => ({ text := [h c], reverse := false } : Piece))).map
      Piece.text).flatten).length = l.length := by
  induction l with
  | nil => rfl
  | cons a t ih =>
    simp only [List.map_cons, List.flatten_cons, List.length_append, List.length_cons,
      List.length_nil, ih]
    omega

/-- C15. ASCII column: `byte_to_ascii b` is `b` itself for the printable codes
0x20 to 0x7E and `.` (46) otherwise, so 65 gives `A` and 1 gives `.`; in every row
written the character column has sixteen pieces of one character each, the character
of the byte for the columns inside the buffer and a space for the others, none in
reverse video. -/
theorem ascii_column (data : List Nat) (f : Int) :
    (∀ b : Nat, b < 256 → byte_to_ascii b = if 32 ≤ b ∧ b ≤ 126 then b else 46) ∧
    byte_to_ascii 65 = 65 ∧ byte_to_ascii 1 = 46 ∧
    (∀ r ∈ display_rows data data.length f,
      r.ascii = (List.range 16).map (fun c : Nat =>
        ({ text := [if r.offset + (c : Int) < data.length
                    then byte_to_ascii (data_at data (r.offset + (c : Int))) else 32]
           reverse := false } : Piece)) ∧
      ((r.ascii.map Piece.text).flatten).length = 16) := by
  refine ⟨?_, by decide, by decide, ?_⟩
  · intro b _
    simp only [byte_to_ascii, isprint, decide_eq_true_eq]
    by_cases h : 32 ≤ b ∧ b ≤ 126
    · have h' : (32 : Int) ≤ b ∧ (b : Int) ≤ 126 := by omega
      simp only [h, h', and_self, if_true]
    · have h' : ¬ ((32 : Int) ≤ b ∧ (b : Int) ≤ 126) := by omega
      simp only [h, h', if_false]
  · intro r hr
    obtain ⟨i, -, -, rfl⟩ := mem_display_rows hr
    have hb : BYTES_PER_LINE.toNat = 16 := rfl
    have e : (display_row data data.length f ((start_line f + (i : Int)) * 16)).ascii =
        (List.range 16).map (fun c : Nat =>
          ({ text := [if (start_line f + (i : Int)) * 16 + (c : Int) < data.length
                      then byte_to_ascii (data_at data ((start_line f + (i : Int)) * 16 + (c : Int)))
                      else 32]
             reverse := false } : Piece)) := by
      simp only [display_row, hb]
      apply List.map_congr_left
      intro c _
      exact ascii_cell_eq _ _ _ _
    refine ⟨e, ?_⟩
    rw [e]
    exact (one_char_each _ _).trans (List.length_range 16)

/-- C15, for the bytes `A`, 1, `z` with the focus at 0: the character column of the one
row written reads `A`, `.`, `z` and thirteen spaces. -/
theorem ascii_column_witness :
    display_row [65, 1, 122] 3 0 0 ∈ display_rows [65, 1, 122] ([65, 1, 122] : List Nat).length 0 ∧
    ((display_row [65, 1, 122] 3 0 0).ascii.map Piece.text).flatten
      = [65, 46, 122, 32, 32, 32, 32, 32, 32, 32, 32, 32, 32, 32, 32, 32] ∧
    (((display_row [65, 1, 122] 3 0 0).ascii.map Piece.text).flatten).length = 16 :=
  ⟨by decide, by decide, ((ascii_column [65, 1, 122] 0).2.2.2 _ (by decide)).2⟩

/-! ## The highlight -/

/-- When only the index `i0` contributes, the concatenation over `0 .. n - 1` is that
contribution, or nothing if `i0` is not among them. -/
theorem flatten_map_single {α : Type} (g : Nat → List α) (x : List α) (i0 : Nat) :
    ∀ n : Nat, (∀ i, i < n → g i = if i = i0 then x else []) →
      ((List.range n).map g).flatten = if i0 < n then x else [] := by
  intro n
  induction n with
  | zero =>
    intro _
    simp
  | succ n ih =>
    intro hg
    have hn : (List.map g [n]).flatten = if n = i0 then x else [] := by
      simp only [List.map_cons, List.map_nil, List.flatten_cons, List.flatten_nil,
        List.append_nil]
      exact hg n (by omega)
    rw [List.range_succ, List.map_append, List.flatten_append,
      ih (fun i hi => hg i (by omega)), hn]
    by_cases h1 : i0 < n
    · have h2 : ¬ (n = i0) := by omega
      have h3 : i0 < n + 1 := by omega
      simp [h1, h2, h3]
    · by_cases h2 : n = i0
      · have h3 : i0 < n + 1 := by omega
        simp [h1, h2, h3]
      · have h3 : ¬ (i0 < n + 1) := by omega
        simp [h1, h2, h3]

theorem hex_cell_reverse (data : List Nat) (L f o c : Int) :
    (hex_cell data L f o c).filter (fun p => p.reverse) =
      if o + c = f then
        (if f < L then [{ text := fmt_hex 2 (data_at data f), reverse := true }] else [])
      else [] := by
  rw [hex_cell_eq]
  by_cases h : o + c = f
  · subst h
    by_cases h2 : o + c < L
    · simp [List.filter_cons, h2]
    · simp [List.filter_cons, h2]
  · simp [List.filter_cons, h]

/-- The pieces of a row that are in reverse video: the cell of the focus if the focus is
in the row and inside the buffer, and nothing otherwise. -/
theorem row_reverse (data : List Nat) (L f o : Int) :
    (display_row data L f o).pieces.filter (fun p => p.reverse) =
      if o ≤ f ∧ f < o + 16 ∧ f < L then
        [{ text := fmt_hex 2 (data_at data f), reverse := true }]
      else [] := by
  have hb : BYTES_PER_LINE.toNat = 16 := rfl
  have hasc : (display_row data L f o).ascii.filter (fun p => p.reverse) = [] := by
    rw [List.filter_eq_nil_iff]
    intro p hp
    simp only [display_row, List.mem_map] at hp
    obtain ⟨c, -, rfl⟩ := hp
    rw [ascii_cell_eq]
    simp
  have hhex : (display_row data L f o).hex.flatten.filter (fun p => p.reverse) =
      if o ≤ f ∧ f < o + 16 ∧ f < L then
        [{ text := fmt_hex 2 (data_at data f), reverse := true }]
      else [] := by
    rw [List.filter_flatten]
    simp only [display_row, hb, List.map_map]
    by_cases ho : o ≤ f
    · rw [flatten_map_single _
        (if f < L then [{ text := fmt_hex 2 (data_at data f), reverse := true }] else [])
        (f - o).toNat 16 (fun c _ => by
          simp only [Function.comp, hex_cell_reverse]
          by_cases hc : c = (f - o).toNat
          · have : o + (c : Int) = f := by omega
            rw [if_pos this, if_pos hc]
          · have : ¬ (o + (c : Int) = f) := by omega
            rw [if_neg this, if_neg hc])]
      by_cases h16 : f < o + 16
      · have : (f - o).toNat < 16 := by omega
        by_cases hL : f < L
        · simp [this, ho, h16, hL]
        · simp [this, ho, h16, hL]
      · have : ¬ ((f - o).toNat < 16) := by omega
        simp [this, ho, h16]
    · rw [flatten_map_single _ ([] : List Piece) 16 16 (fun c hc => by
          simp only [Function.comp, hex_cell_reverse]
          have : ¬ (o + (c : Int) = f) := by omega
          have hc' : ¬ (c = 16) := by omega
          simp only [this, hc', if_false])]
      simp [ho]
  simp only [Row.pieces, List.filter_append, hhex, hasc]
  simp [List.filter_cons]

/-- C20. The focused byte is visible and highlighted once: with the focus `f` inside
the buffer, whatever `f / 16` is, the whole output has exactly one piece in reverse
video, the two digits of `data[f]`; it is the cell of column `f % 16` in a row that is
written and has the offset `16 * (f / 16)`. -/
theorem focus_highlighted_once (data : List Nat) (f : Int) (h0 : 0 ≤ f)
    (h1 : f < data.length) :
    ∃ b : Nat, data[f.toNat]? = some b ∧
      (display_hex_editor data data.length f).filter (fun p => p.reverse)
        = [{ text := fmt_hex 2 b, reverse := true }] ∧
      ∃ r ∈ display_rows data data.length f,
        r.offset = 16 * (f / 16) ∧
        r.hex[(f % 16).toNat]?
          = some [{ text := fmt_hex 2 b, reverse := true }, { text := [32], reverse := false }] := by
  have hS := start_line_of_nonneg h0
  have hlt : f.toNat < data.length := by omega
  refine ⟨data_at data f, ?_, ?_, ?_⟩
  · simp only [data_at, List.getD_eq_getElem?_getD, List.getElem?_eq_getElem hlt,
      Option.getD_some]
  · unfold display_hex_editor
    rw [List.filter_flatten, display_rows_eq, List.map_map, List.map_map,
      flatten_map_single _ [{ text := fmt_hex 2 (data_at data f), reverse := true }]
        (f / 16 - start_line f).toNat _ (fun i _ => by
          simp only [Function.comp, row_reverse]
          by_cases hi : i = (f / 16 - start_line f).toNat
          · have : (start_line f + (i : Int)) * 16 ≤ f ∧
                f < (start_line f + (i : Int)) * 16 + 16 ∧ f < data.length := by omega
            rw [if_pos this, if_pos hi]
          · have : ¬ ((start_line f + (i : Int)) * 16 ≤ f ∧
                f < (start_line f + (i : Int)) * 16 + 16 ∧ f < data.length) := by omega
            rw [if_neg this, if_neg hi])]
    have hk : (f / 16 - start_line f).toNat
        < min 24 (max 0 (((data.length : Int) + 15) / 16 - start_line f)).toNat := by omega
    rw [if_pos hk]
  · refine ⟨display_row data data.length f (16 * (f / 16)), ?_, rfl, ?_⟩
    · rw [rows_as_filter]
      simp only [List.mem_map, List.mem_filter, List.mem_range, decide_eq_true_eq]
      refine ⟨(f / 16 - start_line f).toNat, ⟨by omega, by omega⟩, ?_⟩
      congr 1
      omega
    · have hb : BYTES_PER_LINE.toNat = 16 := rfl
      have hc : (f % 16).toNat < 16 := by omega
      simp only [display_row, hb, List.getElem?_map, List.getElem?_range hc, Option.map_some']
      rw [hex_cell_eq]
      have e : 16 * (f / 16) + ((f % 16).toNat : Int) = f := by omega
      simp only [e, h1, if_true, and_self, decide_True]

/-- C20, for the bytes 7, 8, 9 with the focus at offset 1: the one piece in reverse
video is `08`, in the row of offset 0 at column 1. -/
theorem focus_highlighted_once_witness :
    (0 : Int) ≤ 1 ∧ (1 : Int) < ([7, 8, 9] : List Nat).length ∧
    ∃ b : Nat, ([7, 8, 9] : List Nat)[(1 : Int).toNat]? = some b ∧
      (display_hex_editor [7, 8, 9] ([7, 8, 9] : List Nat).length 1).filter (fun p => p.reverse)
        = [{ text := fmt_hex 2 b, reverse := true }] ∧
      ∃ r ∈ display_rows [7, 8, 9] ([7, 8, 9] : List Nat).length 1,
        r.offset = 16 * ((1 : Int) / 16) ∧
        r.hex[((1 : Int) % 16).toNat]?
          = some [{ text := fmt_hex 2 b, reverse := true }, { text := [32], reverse := false }] :=
  ⟨by decide, by decide, focus_highlighted_once [7, 8, 9] 1 (by decide) (by decide)⟩

/-! ## The terminal on the failure paths -/

/-- C18, on the two failure paths: when `load_file` cannot open the file, and when
`save_file` cannot open it after `q`, the process ends by `exit` after `initscr` with
no `endwin`; the run that saves does reach `endwin` before it returns. -/
theorem exit_without_endwin :
    terminal_events ncurses none [] true = [Event.initscr, Event.exit_failure] ∧
    terminal_events ncurses (some [0]) [CH_q] false = [Event.initscr, Event.exit_failure] ∧
    terminal_events ncurses (some [0]) [CH_q] true
      = [Event.initscr, Event.endwin, Event.returned] := by
  decide

end Unhex
